import Mathlib

/-
  Verification development for the drup repository.

  The task orchestration engine (required by src/projects/manager.js as
  "../task") is not present under src/, so its data model, Graph Builder
  and Executor are modelled from the natural-language specification
  (spec.md sections 3, 4.2, 4.3, 5, 7).  The project storage layer
  (src/projects/storage.js) and the web project type
  (src/projects/types/web_base.js) are embedded directly from source.
-/

namespace Drup

/-- Modelled from the spec: an arbitrary result value an Action may produce
(the engine treats results opaquely, so a small value universe suffices). -/
inductive Val where
  | str (s : String)
  | num (n : Int)
  | boolV (b : Bool)
  | nullV
deriving DecidableEq

/-- Modelled from the spec: the Context is a mutable mapping from string key
to value; writes happen only at step-completion boundaries (section 3). -/
abbrev Context := List (String × Val)

/-- Modelled from the spec: Context.get returns the value stored under a key,
or nothing when the key is absent (section 4.1). -/
def ctxGet (c : Context) (k : String) : Option Val :=
  match c.find? (fun pr => pr.1 == k) with
  | some pr => some pr.2
  | none => none

/-- Modelled from the spec: an Action is given the current Context and
produces a result value or fails (section 3); the missing src/task module
supplies the concrete Action wiring. -/
abbrev Act := Context → Except Val Val

/-- Modelled from the spec: a Step Node wraps one Action, optionally a
symbolic name, and its predecessor set (section 3). -/
structure Step where
  id : Nat
  action : Act
  name : Option String
  preds : List Nat

/-- Modelled from the spec: an argument to then() is either a bare Action or
a one-entry name-to-Action mapping (section 4.2). -/
structure ThenArg where
  name : Option String
  action : Act

/-- Modelled from the spec: the Graph Builder state - created steps, the
current frontier, the name table, the context visible at build time, the
state of a pending ifThen/otherwise pair, and the first build error
(section 3, section 4.2, section 7). -/
structure Task where
  steps : List Step
  frontier : List Nat
  named : List (String × Nat)
  buildCtx : Context
  lastPred : Option Bool
  err : Option String

/-- Modelled from the spec: a fresh builder with no steps (the missing
src/task module constructor before its first arguments are added). -/
def Task.emptyT (bctx : Context) : Task := ⟨[], [], [], bctx, none, none⟩

/-- Modelled from the spec: the steps created by one then() call - one step
per argument, every new step preceded by the entire current frontier
(section 4.2). -/
def mkSteps (base : Nat) (fr : List Nat) : List ThenArg → List Step
  | [] => []
  | a :: rest => ⟨base, a.action, a.name, fr⟩ :: mkSteps (base + 1) fr rest

/-- Modelled from the spec: the name-table entries contributed by one then()
call (named steps become discoverable for later joins, section 3). -/
def mkNamed (base : Nat) : List ThenArg → List (String × Nat)
  | [] => []
  | a :: rest =>
    (match a.name with | some n => [(n, base)] | none => []) ++ mkNamed (base + 1) rest

/-- Modelled from the spec: a duplicate symbolic name is a build-time error
(section 7), so the new names must be mutually distinct and fresh. -/
def argsFresh (t : Task) (args : List ThenArg) : Bool :=
  decide ((args.filterMap ThenArg.name).Nodup ∧
    ∀ n ∈ args.filterMap ThenArg.name, ∀ pr ∈ t.named, pr.1 ≠ n)

/-- Modelled from the spec: then(...args) creates one new step per argument,
each preceded by the entire current frontier; the new frontier is the set of
newly created steps; at least one argument is required (section 4.2). -/
def Task.thenA (t : Task) (args : List ThenArg) : Task :=
  if t.err.isSome then t
  else if args.isEmpty then
    { t with err := some "then requires at least one argument", lastPred := none }
  else if argsFresh t args then
    { t with steps := t.steps ++ mkSteps t.steps.length t.frontier args,
             frontier := (mkSteps t.steps.length t.frontier args).map Step.id,
             named := t.named ++ mkNamed t.steps.length args,
             lastPred := none }
  else { t with err := some "duplicate step name", lastPred := none }

/-- Modelled from the spec: the Task constructor takes the first then-style
arguments (section 4.2; usage observed in src/projects/manager.js). -/
def Task.create (bctx : Context) (args : List ThenArg) : Task :=
  (Task.emptyT bctx).thenA args

/-- Modelled from the spec: ifThen(predicate, thenBuilderFn) evaluates the
predicate against the build-time context; if true it invokes the builder
function on the same builder, otherwise it leaves the builder unchanged,
deferring to a following otherwise (section 4.2). -/
def Task.ifThen (t : Task) (p : Context → Bool) (f : Task → Task) : Task :=
  if t.err.isSome then t
  else if p t.buildCtx then { f { t with lastPred := none } with lastPred := some true }
  else { t with lastPred := some false }

/-- Modelled from the spec: otherwise(elseBuilderFn) must immediately follow
an ifThen; it invokes the else builder function exactly when the preceding
predicate was false (section 4.2, section 7). -/
def Task.otherwise (t : Task) (g : Task → Task) : Task :=
  match t.lastPred with
  | some true => { t with lastPred := none }
  | some false =>
    if t.err.isSome then { t with lastPred := none }
    else { g { t with lastPred := none } with lastPred := none }
  | none =>
    if t.err.isSome then t
    else { t with err := some "otherwise without preceding ifThen" }

/-- Modelled from the spec: the second argument of after() is either a
builder-continuation function or a then-style step argument (section 4.2). -/
inductive AfterArg where
  | cont (f : Task → Task)
  | step (a : ThenArg)

/-- Modelled from the spec: resolving the named predecessors of a join;
referencing an unknown name is a build-time error (section 3). -/
def resolveNames (t : Task) : List String → Option (List Nat)
  | [] => some []
  | n :: rest =>
    match t.named.find? (fun pr => pr.1 == n), resolveNames t rest with
    | some pr, some is => some (pr.2 :: is)
    | _, _ => none

/-- Modelled from the spec: freshness of the optional name of a single join
step (duplicate symbolic names are build-time errors, section 7). -/
def nameFresh (t : Task) (a : ThenArg) : Bool :=
  match a.name with
  | some n => decide (∀ pr ∈ t.named, pr.1 ≠ n)
  | none => true

/-- Modelled from the spec: after(names, step) creates a join step whose
predecessor set is exactly the named steps and which becomes the new
frontier; a continuation argument instead receives the builder positioned
after the join (section 4.2). -/
def Task.after (t : Task) (ns : List String) (arg : AfterArg) : Task :=
  if t.err.isSome then t
  else match resolveNames t ns with
  | none => { t with err := some "after references unknown name", lastPred := none }
  | some ids =>
    match arg with
    | .cont f => f { t with frontier := ids, lastPred := none }
    | .step a =>
      if nameFresh t a then
        { t with steps := t.steps ++ [⟨t.steps.length, a.action, a.name, ids⟩],
                 frontier := [t.steps.length],
                 named := t.named ++
                   (match a.name with | some n => [(n, t.steps.length)] | none => []),
                 lastPred := none }
      else { t with err := some "duplicate step name", lastPred := none }

/-! ## Executor (modelled from spec section 4.3 and section 5) -/

/-- Modelled from the spec: the error a run ends with - the failure of an
Action (the handle rejects with that error, section 7), a build-time error
surfaced through start, or a stuck graph (a run in which some step can never
execute is not a successful run, section 4.3). -/
inductive RunErr where
  | actionFailed (e : Val)
  | buildError (msg : String)
  | stuck
deriving DecidableEq

instance {α β : Type} [DecidableEq α] [DecidableEq β] : DecidableEq (Except α β)
  | .ok x, .ok y =>
    if h : x = y then isTrue (by rw [h]) else isFalse (by intro hh; cases hh; exact h rfl)
  | .ok _, .error _ => isFalse (by intro h; cases h)
  | .error _, .ok _ => isFalse (by intro h; cases h)
  | .error x, .error y =>
    if h : x = y then isTrue (by rw [h]) else isFalse (by intro hh; cases hh; exact h rfl)

/-- Modelled from the spec: one scheduling record of the Executor - which
step was invoked, the Context its Action received, the symbolic name of the
step, and the outcome of its Action. -/
structure TraceEntry where
  sid : Nat
  ctxIn : Context
  sname : Option String
  out : Except Val Val
deriving DecidableEq

/-- Modelled from the spec: on completion the result of a named step is
written into the Context under that name; unnamed results are discarded
(section 3, section 4.1). -/
def mergeStep (name : Option String) (v : Val) (c : Context) : Context :=
  match name with
  | some n => (n, v) :: c
  | none => c

/-- Modelled from the spec: a step is ready when it has not yet executed and
every predecessor has completed (section 4.3). -/
def isReady (done : List Nat) (s : Step) : Bool :=
  decide (s.id ∉ done) && decide (∀ p ∈ s.preds, p ∈ done)

/-- Modelled from the spec: the run completes successfully exactly when every
step has executed (section 4.3). -/
def allDone (steps : List Step) (done : List Nat) : Bool :=
  decide (∀ s ∈ steps, s.id ∈ done)

/-- Modelled from the spec: the Executor repeatedly runs a ready step, merges
its result into the Context and continues; it stops scheduling at the first
Action failure and rejects with that error (sections 4.3, 5 and 7).  The
fuel argument bounds the number of scheduling rounds; each round executes
one distinct step, so the number of steps is always enough fuel. -/
def runAux (steps : List Step) : Nat → Context → List Nat → List TraceEntry × Except RunErr Context
  | 0, ctx, done =>
    ([], if allDone steps done then .ok ctx else .error .stuck)
  | fuel + 1, ctx, done =>
    match steps.find? (isReady done) with
    | none => ([], if allDone steps done then .ok ctx else .error .stuck)
    | some s =>
      match s.action ctx with
      | .error e => ([⟨s.id, ctx, s.name, .error e⟩], .error (.actionFailed e))
      | .ok v =>
        let r := runAux steps fuel (mergeStep s.name v ctx) (done ++ [s.id])
        (⟨s.id, ctx, s.name, .ok v⟩ :: r.1, r.2)

/-- Modelled from the spec: running a completed graph from an initial
Context (section 4.3). -/
def Task.run (t : Task) (init : Context) : List TraceEntry × Except RunErr Context :=
  runAux t.steps t.steps.length init []

/-- Modelled from the spec: start(initialContextEntries) seeds the Context
with the given entries, hands the completed graph to the Executor and
returns a handle that resolves with the final Context or rejects with the
first failure encountered (section 4.2). -/
def Task.start (t : Task) (init : Context) : List TraceEntry × Except RunErr Context :=
  match t.err with
  | some m => ([], .error (.buildError m))
  | none => t.run init

/-- Replaying a trace over a Context: each successful entry of a named step
appends its published result, everything else leaves the Context unchanged. -/
def ctxAfterTr (c : Context) : List TraceEntry → Context
  | [] => c
  | e :: tr =>
    ctxAfterTr (match e.out with
      | .ok v => mergeStep e.sname v c
      | .error _ => c) tr

/-- The symbolic names of the steps of a graph. -/
def stepNames (steps : List Step) : List String := steps.filterMap Step.name

/-- Well-formedness of a step list starting at index n: each step carries its
own position as id and only references strictly earlier steps.  The Graph
Builder only ever attaches new steps to existing ones (spec section 3). -/
def wfFrom (n : Nat) : List Step → Bool
  | [] => true
  | s :: rest => decide (s.id = n) && decide (∀ p ∈ s.preds, p < n) && wfFrom (n + 1) rest

/-- Well-formedness of a whole graph. -/
def wfStepsB (steps : List Step) : Bool := wfFrom 0 steps

/-- Consistency of the builder name table: every registered name points at a
step of the graph carrying that name. -/
def namedOkB (t : Task) : Bool :=
  decide (∀ pr ∈ t.named, ∃ s ∈ t.steps, s.id = pr.2 ∧ s.name = some pr.1)

/-! ## Soundness of Executor traces -/

/-- A sound scheduling trace from a given Context and set of completed
steps: every entry invokes a ready step of the graph on the Context of its
scheduling point, results are merged step by step, and a failing entry ends
the trace. -/
def okTrace (steps : List Step) : Context → List Nat → List TraceEntry → Prop
  | _, _, [] => True
  | ctx, done, e :: tr =>
    (∃ s ∈ steps, s.id = e.sid ∧ s.name = e.sname ∧ s.action ctx = e.out ∧
      isReady done s = true ∧ e.ctxIn = ctx) ∧
    (match e.out with
      | .ok v => okTrace steps (mergeStep e.sname v ctx) (done ++ [e.sid]) tr
      | .error _ => tr = [])

theorem isReady_spec {done : List Nat} {s : Step} (h : isReady done s = true) :
    s.id ∉ done ∧ ∀ p ∈ s.preds, p ∈ done := by
  simpa [isReady] using h

theorem runAux_okTrace (steps : List Step) :
    ∀ fuel ctx done, okTrace steps ctx done (runAux steps fuel ctx done).1 := by
  intro fuel
  induction fuel with
  | zero => intro ctx done; simp [runAux, okTrace]
  | succ n ih =>
    intro ctx done
    simp only [runAux]
    cases hf : steps.find? (isReady done) with
    | none => simp [okTrace]
    | some s =>
      have hmem : s ∈ steps := List.mem_of_find?_eq_some hf
      have hready : isReady done s = true := List.find?_some hf
      cases ha : s.action ctx with
      | error e =>
        dsimp only
        rw [ha]
        exact ⟨⟨s, hmem, rfl, rfl, ha, hready, rfl⟩, rfl⟩
      | ok v =>
        dsimp only
        rw [ha]
        exact ⟨⟨s, hmem, rfl, rfl, ha, hready, rfl⟩, ih (mergeStep s.name v ctx) (done ++ [s.id])⟩

theorem okTrace_take (steps : List Step) :
    ∀ tr ctx done, okTrace steps ctx done tr → ∀ k, okTrace steps ctx done (tr.take k) := by
  intro tr
  induction tr with
  | nil => intro ctx done _ k; simp [okTrace]
  | cons e tr ih =>
    intro ctx done h k
    obtain ⟨hs, hrest⟩ := h
    cases k with
    | zero => simp [okTrace]
    | succ k =>
      refine ⟨hs, ?_⟩
      cases ho : e.out with
      | ok v =>
        rw [ho] at hrest
        exact ih _ _ hrest k
      | error er =>
        rw [ho] at hrest
        simp [hrest]

theorem okTrace_get (steps : List Step) :
    ∀ tr ctx done, okTrace steps ctx done tr →
    ∀ k (hk : k < tr.length),
      ∃ s ∈ steps,
        s.id = (tr.get ⟨k, hk⟩).sid ∧ s.name = (tr.get ⟨k, hk⟩).sname ∧
        s.action (tr.get ⟨k, hk⟩).ctxIn = (tr.get ⟨k, hk⟩).out ∧
        isReady (done ++ (tr.take k).map TraceEntry.sid) s = true ∧
        (tr.get ⟨k, hk⟩).ctxIn = ctxAfterTr ctx (tr.take k) := by
  intro tr
  induction tr with
  | nil => intro ctx done _ k hk; exact absurd hk (by simp)
  | cons e tr ih =>
    intro ctx done h k hk
    obtain ⟨⟨s, hsmem, hsid, hsname, hact, hready, hctx⟩, hrest⟩ := h
    cases k with
    | zero =>
      refine ⟨s, hsmem, ?_⟩
      simp only [List.get, List.take, List.map, ctxAfterTr, List.append_nil]
      exact ⟨hsid, hsname, by rw [hctx]; exact hact, hready, hctx⟩
    | succ k =>
      cases ho : e.out with
      | error er =>
        rw [ho] at hrest
        rw [hrest] at hk
        exact absurd hk (by simp)
      | ok v =>
        rw [ho] at hrest
        have hk2 : k < tr.length := by simpa using hk
        obtain ⟨s2, hs2mem, h1, h2, h3, h4, h5⟩ :=
          ih (mergeStep e.sname v ctx) (done ++ [e.sid]) hrest k hk2
        refine ⟨s2, hs2mem, ?_⟩
        simp only [List.get, List.take, List.map, ctxAfterTr, ho]
        refine ⟨h1, h2, h3, ?_, h5⟩
        simpa [List.append_assoc] using h4

theorem okTrace_mem (steps : List Step) :
    ∀ tr ctx done, okTrace steps ctx done tr →
    ∀ e ∈ tr, ∃ s ∈ steps, s.id = e.sid ∧ s.name = e.sname := by
  intro tr
  induction tr with
  | nil => intro ctx done _ e he; exact absurd he (by simp)
  | cons a tr ih =>
    intro ctx done h e he
    obtain ⟨⟨s, hsmem, hsid, hsname, _, _, _⟩, hrest⟩ := h
    rcases List.mem_cons.mp he with he | he
    · subst he
      exact ⟨s, hsmem, hsid, hsname⟩
    · cases ho : a.out with
      | ok v =>
        rw [ho] at hrest
        exact ih _ _ hrest e he
      | error er =>
        rw [ho] at hrest
        rw [hrest] at he
        exact absurd he (by simp)

theorem okTrace_nodup (steps : List Step) :
    ∀ tr ctx done, okTrace steps ctx done tr → done.Nodup →
    (done ++ tr.map TraceEntry.sid).Nodup := by
  intro tr
  induction tr with
  | nil => intro ctx done _ hd; simpa using hd
  | cons e tr ih =>
    intro ctx done h hd
    obtain ⟨⟨s, _, hsid, _, _, hready, _⟩, hrest⟩ := h
    have hnotin : e.sid ∉ done := by
      rw [← hsid]; exact (isReady_spec hready).1
    have hd2 : (done ++ [e.sid]).Nodup := by
      simp [List.nodup_append, hd, hnotin, List.disjoint_singleton]
    cases ho : e.out with
    | ok v =>
      rw [ho] at hrest
      have := ih _ _ hrest hd2
      simpa [List.append_assoc] using this
    | error er =>
      rw [ho] at hrest
      rw [hrest]
      simpa using hd2

theorem okTrace_err_last (steps : List Step) :
    ∀ tr ctx done, okTrace steps ctx done tr →
    ∀ k (hk : k < tr.length) er, (tr.get ⟨k, hk⟩).out = .error er → k + 1 = tr.length := by
  intro tr
  induction tr with
  | nil => intro ctx done _ k hk; exact absurd hk (by simp)
  | cons e tr ih =>
    intro ctx done h k hk er hout
    obtain ⟨_, hrest⟩ := h
    cases k with
    | zero =>
      simp only [List.get] at hout
      rw [hout] at hrest
      simp [hrest]
    | succ k =>
      cases ho : e.out with
      | error e2 =>
        rw [ho] at hrest
        rw [hrest] at hk
        exact absurd hk (by simp)
      | ok v =>
        rw [ho] at hrest
        have hk2 : k < tr.length := by simpa using hk
        have := ih _ _ hrest k hk2 er hout
        simpa using congrArg Nat.succ this

theorem runAux_ok (steps : List Step) :
    ∀ fuel ctx done c, (runAux steps fuel ctx done).2 = .ok c →
    c = ctxAfterTr ctx (runAux steps fuel ctx done).1 ∧
    allDone steps (done ++ (runAux steps fuel ctx done).1.map TraceEntry.sid) = true := by
  intro fuel
  induction fuel with
  | zero =>
    intro ctx done c h
    by_cases hd : allDone steps done = true
    · simp only [runAux, hd, if_true] at h
      cases h
      simp [runAux, ctxAfterTr, hd]
    · simp only [runAux, hd, if_false] at h
      cases h
  | succ n ih =>
    intro ctx done c h
    cases hf : steps.find? (isReady done) with
    | none =>
      simp only [runAux, hf] at h ⊢
      by_cases hd : allDone steps done = true
      · simp only [hd, if_true] at h
        cases h
        simp [ctxAfterTr, hd]
      · simp only [hd, if_false] at h
        cases h
    | some s =>
      cases ha : s.action ctx with
      | error e =>
        simp only [runAux, hf, ha] at h
        cases h
      | ok v =>
        simp only [runAux, hf, ha] at h ⊢
        obtain ⟨h1, h2⟩ := ih (mergeStep s.name v ctx) (done ++ [s.id]) c h
        refine ⟨?_, ?_⟩
        · simpa [ctxAfterTr] using h1
        · simpa [List.append_assoc] using h2

theorem runAux_err (steps : List Step) :
    ∀ fuel ctx done e, (runAux steps fuel ctx done).2 = .error (.actionFailed e) →
    ∃ k, ∃ hk : k < (runAux steps fuel ctx done).1.length,
      ((runAux steps fuel ctx done).1.get ⟨k, hk⟩).out = .error e := by
  intro fuel
  induction fuel with
  | zero =>
    intro ctx done e h
    by_cases hd : allDone steps done = true <;> simp [runAux, hd] at h
  | succ n ih =>
    intro ctx done e h
    cases hf : steps.find? (isReady done) with
    | none =>
      have hstep : runAux steps (n + 1) ctx done =
          ([], if allDone steps done then .ok ctx else .error .stuck) := by
        simp only [runAux, hf]
      rw [hstep] at h
      by_cases hd : allDone steps done = true <;> simp [hd] at h
    | some s =>
      cases ha : s.action ctx with
      | error e2 =>
        have hstep : runAux steps (n + 1) ctx done =
            ([⟨s.id, ctx, s.name, .error e2⟩], .error (.actionFailed e2)) := by
          simp only [runAux, hf, ha]
        rw [hstep] at h ⊢
        cases h
        exact ⟨0, by simp, rfl⟩
      | ok v =>
        have hstep : runAux steps (n + 1) ctx done =
            (⟨s.id, ctx, s.name, .ok v⟩ ::
              (runAux steps n (mergeStep s.name v ctx) (done ++ [s.id])).1,
              (runAux steps n (mergeStep s.name v ctx) (done ++ [s.id])).2) := by
          simp only [runAux, hf, ha]
        rw [hstep] at h ⊢
        obtain ⟨k, hk, hout⟩ := ih (mergeStep s.name v ctx) (done ++ [s.id]) e h
        exact ⟨k + 1, by simpa using Nat.succ_lt_succ hk, hout⟩

theorem runAux_entry_err (steps : List Step) :
    ∀ fuel ctx done tr res, runAux steps fuel ctx done = (tr, res) →
    ∀ k (hk : k < tr.length) er, (tr.get ⟨k, hk⟩).out = .error er →
    res = .error (.actionFailed er) := by
  intro fuel
  induction fuel with
  | zero =>
    intro ctx done tr res hrun k hk er h
    rw [runAux] at hrun
    have htr : tr = [] := by
      have := congrArg Prod.fst hrun
      simpa using this.symm
    rw [htr] at hk
    exact absurd hk (by simp)
  | succ n ih =>
    intro ctx done tr res hrun k hk er h
    cases hf : steps.find? (isReady done) with
    | none =>
      have hstep : runAux steps (n + 1) ctx done =
          ([], if allDone steps done then .ok ctx else .error .stuck) := by
        simp only [runAux, hf]
      rw [hstep] at hrun
      have htr : tr = [] := by
        have := congrArg Prod.fst hrun
        simpa using this.symm
      rw [htr] at hk
      exact absurd hk (by simp)
    | some s =>
      cases ha : s.action ctx with
      | error e2 =>
        have hstep : runAux steps (n + 1) ctx done =
            ([⟨s.id, ctx, s.name, .error e2⟩], .error (.actionFailed e2)) := by
          simp only [runAux, hf, ha]
        rw [hstep] at hrun
        have htr : tr = [⟨s.id, ctx, s.name, .error e2⟩] := by
          have := congrArg Prod.fst hrun
          simpa using this.symm
        have hres : res = .error (.actionFailed e2) := by
          have := congrArg Prod.snd hrun
          simpa using this.symm
        subst htr
        cases k with
        | zero =>
          simp only [List.get] at h
          cases h
          exact hres
        | succ k => exact absurd hk (by simp)
      | ok v =>
        have hstep : runAux steps (n + 1) ctx done =
            (⟨s.id, ctx, s.name, .ok v⟩ ::
              (runAux steps n (mergeStep s.name v ctx) (done ++ [s.id])).1,
              (runAux steps n (mergeStep s.name v ctx) (done ++ [s.id])).2) := by
          simp only [runAux, hf, ha]
        rw [hstep] at hrun
        have htr : tr = ⟨s.id, ctx, s.name, .ok v⟩ ::
            (runAux steps n (mergeStep s.name v ctx) (done ++ [s.id])).1 := by
          have := congrArg Prod.fst hrun
          simpa using this.symm
        have hres : res = (runAux steps n (mergeStep s.name v ctx) (done ++ [s.id])).2 := by
          have := congrArg Prod.snd hrun
          simpa using this.symm
        subst htr
        cases k with
        | zero =>
          simp only [List.get] at h
          cases h
        | succ k =>
          rw [hres]
          exact ih (mergeStep s.name v ctx) (done ++ [s.id]) _ _ rfl k (by simpa using hk) er h

/-! ## Context lookup through a trace -/

/-- The value (if any) a single trace entry publishes under a key. -/
def entryWrite (n : String) (e : TraceEntry) : Option Val :=
  match e.out, e.sname with
  | .ok v, some m => if m = n then some v else none
  | _, _ => none

/-- The last value published under a key along a trace. -/
def lastWriteOf (n : String) : List TraceEntry → Option Val
  | [] => none
  | e :: tr =>
    match lastWriteOf n tr with
    | some v => some v
    | none => entryWrite n e

theorem ctxGet_cons (k n : String) (v : Val) (c : Context) :
    ctxGet ((n, v) :: c) k = if n = k then some v else ctxGet c k := by
  by_cases h : n = k
  · simp [ctxGet, List.find?, h]
  · simp only [ctxGet, List.find?]
    have : ((n, v).1 == k) = false := by simpa using h
    simp [this, h]

theorem ctxGet_ctxAfterTr (n : String) :
    ∀ (tr : List TraceEntry) (c : Context),
    ctxGet (ctxAfterTr c tr) n =
      (match lastWriteOf n tr with
        | some v => some v
        | none => ctxGet c n) := by
  intro tr
  induction tr with
  | nil => intro c; simp [ctxAfterTr, lastWriteOf]
  | cons e tr ih =>
    intro c
    rw [ctxAfterTr, lastWriteOf]
    rw [ih]
    cases hl : lastWriteOf n tr with
    | some v => simp
    | none =>
      cases ho : e.out with
      | ok v =>
        cases hn : e.sname with
        | some m =>
          by_cases hm : m = n
          · simp [entryWrite, ho, hn, hm, mergeStep, ctxGet_cons]
          · simp [entryWrite, ho, hn, hm, mergeStep, ctxGet_cons]
        | none => simp [entryWrite, ho, hn, mergeStep]
      | error er => simp [entryWrite, ho, mergeStep]

theorem lastWriteOf_writer (n : String) :
    ∀ tr w, lastWriteOf n tr = some w → ∃ e ∈ tr, entryWrite n e ≠ none := by
  intro tr
  induction tr with
  | nil => intro w h; simp [lastWriteOf] at h
  | cons e tr ih =>
    intro w h
    rw [lastWriteOf] at h
    cases hl : lastWriteOf n tr with
    | some v =>
      obtain ⟨e2, he2, hw⟩ := ih v hl
      exact ⟨e2, List.mem_cons_of_mem _ he2, hw⟩
    | none =>
      rw [hl] at h
      dsimp only at h
      exact ⟨e, List.mem_cons_self _ _, by simp [h]⟩

theorem lastWriteOf_of_unique (n : String) :
    ∀ (tr : List TraceEntry) (e0 : TraceEntry) (v : Val), e0 ∈ tr →
    entryWrite n e0 = some v →
    (∀ e ∈ tr, entryWrite n e ≠ none → e = e0) →
    lastWriteOf n tr = some v := by
  intro tr
  induction tr with
  | nil => intro e0 v hmem; exact absurd hmem (by simp)
  | cons a tr ih =>
    intro e0 v hmem hw huniq
    rw [lastWriteOf]
    by_cases hin : e0 ∈ tr
    · rw [ih e0 v hin hw (fun e he hne => huniq e (List.mem_cons_of_mem _ he) hne)]
    · rcases List.mem_cons.mp hmem with h0 | h0
      · have hnone : lastWriteOf n tr = none := by
          cases hl : lastWriteOf n tr with
          | none => rfl
          | some w =>
            obtain ⟨e2, he2, hne⟩ := lastWriteOf_writer n tr w hl
            have := huniq e2 (List.mem_cons_of_mem _ he2) hne
            rw [this] at he2
            exact absurd (h0 ▸ he2) hin
        rw [hnone, ← h0]
        exact hw
      · exact absurd h0 hin

theorem ctxAfterTr_append (c : Context) :
    ∀ l1 l2 : List TraceEntry, ctxAfterTr c (l1 ++ l2) = ctxAfterTr (ctxAfterTr c l1) l2 := by
  intro l1
  induction l1 generalizing c with
  | nil => intro l2; simp [ctxAfterTr]
  | cons e l1 ih => intro l2; rw [List.cons_append, ctxAfterTr, ctxAfterTr, ih]

theorem ctxGet_isSome_ctxAfterTr (n : String) :
    ∀ (tr : List TraceEntry) (c : Context),
    (ctxGet c n).isSome = true → (ctxGet (ctxAfterTr c tr) n).isSome = true := by
  intro tr
  induction tr with
  | nil => intro c h; simpa [ctxAfterTr] using h
  | cons e tr ih =>
    intro c h
    rw [ctxAfterTr]
    apply ih
    cases ho : e.out with
    | ok v =>
      cases hn : e.sname with
      | some m =>
        by_cases hm : m = n <;> simp [mergeStep, ctxGet_cons, hm, h]
      | none => simpa [mergeStep] using h
    | error er => simpa using h

theorem ctxGet_no_write (n : String) :
    ∀ (tr : List TraceEntry) (c : Context),
    (∀ e ∈ tr, e.sname ≠ some n) → ctxGet (ctxAfterTr c tr) n = ctxGet c n := by
  intro tr
  induction tr with
  | nil => intro c _; simp [ctxAfterTr]
  | cons e tr ih =>
    intro c hnw
    rw [ctxAfterTr]
    have htail : ∀ e2 ∈ tr, e2.sname ≠ some n :=
      fun e2 he2 => hnw e2 (List.mem_cons_of_mem _ he2)
    cases ho : e.out with
    | ok v =>
      cases hn : e.sname with
      | some m =>
        have hm : m ≠ n := by
          intro hc
          exact hnw e (List.mem_cons_self _ _) (by rw [hn, hc])
        rw [ih (mergeStep (some m) v c) htail]
        simp [mergeStep, ctxGet_cons, hm]
      | none =>
        rw [ih (mergeStep none v c) htail]
        simp [mergeStep]
    | error er => exact ih c htail

/-! ## Uniqueness helpers -/

theorem map_nodup_inj {α β : Type} {f : α → β} :
    ∀ l : List α, (l.map f).Nodup → ∀ a ∈ l, ∀ b ∈ l, f a = f b → a = b := by
  intro l
  induction l with
  | nil => intro _ a ha; exact absurd ha (by simp)
  | cons x l ih =>
    intro hnd a ha b hb hfab
    rw [List.map_cons, List.nodup_cons] at hnd
    obtain ⟨hx, hl⟩ := hnd
    rcases List.mem_cons.mp ha with ha2 | ha2
    · rcases List.mem_cons.mp hb with hb2 | hb2
      · rw [ha2, hb2]
      · exfalso
        apply hx
        have : f b ∈ l.map f := List.mem_map_of_mem f hb2
        rw [← hfab, ha2] at this
        exact this
    · rcases List.mem_cons.mp hb with hb2 | hb2
      · exfalso
        apply hx
        have : f a ∈ l.map f := List.mem_map_of_mem f ha2
        rw [hfab, hb2] at this
        exact this
      · exact ih hl a ha2 b hb2 hfab

theorem stepNames_cons_some {t : Step} {l : List Step} {m : String} (h : t.name = some m) :
    stepNames (t :: l) = m :: stepNames l := by
  simp [stepNames, List.filterMap_cons, h]

theorem stepNames_cons_none {t : Step} {l : List Step} (h : t.name = none) :
    stepNames (t :: l) = stepNames l := by
  simp [stepNames, List.filterMap_cons, h]

theorem named_unique :
    ∀ (steps : List Step), (stepNames steps).Nodup →
    ∀ s1 ∈ steps, ∀ s2 ∈ steps, ∀ n : String,
    s1.name = some n → s2.name = some n → s1 = s2 := by
  intro steps
  induction steps with
  | nil => intro _ s1 hm1; exact absurd hm1 (by simp)
  | cons t l ih =>
    intro hnd s1 hm1 s2 hm2 n hn1 hn2
    rcases List.mem_cons.mp hm1 with he1 | he1
    · rcases List.mem_cons.mp hm2 with he2 | he2
      · rw [he1, he2]
      · exfalso
        have hmem : n ∈ stepNames l := List.mem_filterMap.mpr ⟨s2, he2, hn2⟩
        have hcons : stepNames (t :: l) = n :: stepNames l :=
          stepNames_cons_some (by rw [← he1]; exact hn1)
        rw [hcons] at hnd
        exact (List.nodup_cons.mp hnd).1 hmem
    · rcases List.mem_cons.mp hm2 with he2 | he2
      · exfalso
        have hmem : n ∈ stepNames l := List.mem_filterMap.mpr ⟨s1, he1, hn1⟩
        have hcons : stepNames (t :: l) = n :: stepNames l :=
          stepNames_cons_some (by rw [← he2]; exact hn2)
        rw [hcons] at hnd
        exact (List.nodup_cons.mp hnd).1 hmem
      · have hnd2 : (stepNames l).Nodup := by
          cases ht : t.name with
          | none => rw [stepNames_cons_none ht] at hnd; exact hnd
          | some m =>
            rw [stepNames_cons_some ht] at hnd
            exact (List.nodup_cons.mp hnd).2
        exact ih hnd2 s1 he1 s2 he2 n hn1 hn2

theorem entryWrite_ne_none {n : String} {e : TraceEntry} (h : entryWrite n e ≠ none) :
    e.sname = some n ∧ ∃ w, e.out = .ok w := by
  cases ho : e.out with
  | ok v =>
    cases hn : e.sname with
    | some m =>
      rw [entryWrite, ho, hn] at h
      dsimp only at h
      by_cases hm : m = n
      · exact ⟨by rw [hm], v, rfl⟩
      · simp [hm] at h
    | none =>
      rw [entryWrite, ho, hn] at h
      simp at h
  | error er =>
    rw [entryWrite, ho] at h
    simp at h

/-- In a sound trace of a graph with unique step names, a successful entry of
a step named n determines the Context lookup of n after the trace. -/
theorem writer_lookup (steps : List Step) (hnames : (stepNames steps).Nodup) :
    ∀ (tr : List TraceEntry) (ctx : Context) (done : List Nat),
    okTrace steps ctx done tr → (tr.map TraceEntry.sid).Nodup →
    ∀ e ∈ tr, ∀ (n : String) (v : Val), e.sname = some n → e.out = .ok v →
    ctxGet (ctxAfterTr ctx tr) n = some v := by
  intro tr ctx done hok hnd e he n v hn hv
  have hw : entryWrite n e = some v := by
    rw [entryWrite, hv, hn]
    simp
  have huniq : ∀ e2 ∈ tr, entryWrite n e2 ≠ none → e2 = e := by
    intro e2 he2 hne
    obtain ⟨hn2, w, hw2⟩ := entryWrite_ne_none hne
    obtain ⟨s2, hs2mem, hs2id, hs2name⟩ := okTrace_mem steps tr ctx done hok e2 he2
    obtain ⟨s1, hs1mem, hs1id, hs1name⟩ := okTrace_mem steps tr ctx done hok e he
    have hseq : s2 = s1 :=
      named_unique steps hnames s2 hs2mem s1 hs1mem n (by rw [hs2name, hn2]) (by rw [hs1name, hn])
    have hsid : e2.sid = e.sid := by rw [← hs2id, hseq, hs1id]
    exact map_nodup_inj tr hnd e2 he2 e he hsid
  rw [ctxGet_ctxAfterTr, lastWriteOf_of_unique n tr e v he hw huniq]

/-! ## Well-formed graphs -/

theorem wfFrom_get :
    ∀ (l : List Step) (n : Nat), wfFrom n l = true →
    ∀ k (hk : k < l.length),
      (l.get ⟨k, hk⟩).id = n + k ∧ ∀ p ∈ (l.get ⟨k, hk⟩).preds, p < n + k := by
  intro l
  induction l with
  | nil => intro n _ k hk; exact absurd hk (by simp)
  | cons s rest ih =>
    intro n h k hk
    rw [wfFrom] at h
    simp only [Bool.and_eq_true, decide_eq_true_eq] at h
    obtain ⟨⟨hid, hpred⟩, hrest⟩ := h
    cases k with
    | zero => simpa [List.get] using ⟨hid, hpred⟩
    | succ k =>
      have := ih (n + 1) hrest k (by simpa using hk)
      simpa [List.get, Nat.add_assoc, Nat.add_comm 1 k] using this

theorem wf_get (steps : List Step) (h : wfStepsB steps = true) :
    ∀ k (hk : k < steps.length), (steps.get ⟨k, hk⟩).id = k := by
  intro k hk
  simpa using (wfFrom_get steps 0 h k hk).1

theorem wf_id_lt (steps : List Step) (h : wfStepsB steps = true) :
    ∀ s ∈ steps, s.id < steps.length := by
  intro s hs
  obtain ⟨⟨k, hk⟩, hget⟩ := List.mem_iff_get.mp hs
  have := wf_get steps h k hk
  rw [hget] at this
  rw [this]
  exact hk

theorem wf_mem_get (steps : List Step) (h : wfStepsB steps = true) :
    ∀ s ∈ steps, ∃ hlt : s.id < steps.length, steps.get ⟨s.id, hlt⟩ = s := by
  intro s hs
  obtain ⟨⟨k, hk⟩, hget⟩ := List.mem_iff_get.mp hs
  have hid := wf_get steps h k hk
  rw [hget] at hid
  refine ⟨by rw [hid]; exact hk, ?_⟩
  simp only [hid]
  exact hget

theorem wf_id_inj (steps : List Step) (h : wfStepsB steps = true) :
    ∀ s1 ∈ steps, ∀ s2 ∈ steps, s1.id = s2.id → s1 = s2 := by
  intro s1 h1 s2 h2 heq
  obtain ⟨hl1, hg1⟩ := wf_mem_get steps h s1 h1
  obtain ⟨hl2, hg2⟩ := wf_mem_get steps h s2 h2
  rw [← hg1, ← hg2]
  congr 1
  exact Fin.ext heq

/-! ## take and get helpers -/

theorem get_mem_take {α : Type} :
    ∀ (l : List α) (m k : Nat) (hm : m < k) (hml : m < l.length),
    l.get ⟨m, hml⟩ ∈ l.take k := by
  intro l
  induction l with
  | nil => intro m k hm hml; exact absurd hml (by simp)
  | cons x l ih =>
    intro m k hm hml
    cases k with
    | zero => exact absurd hm (by simp)
    | succ k =>
      cases m with
      | zero => simp [List.take]
      | succ m =>
        rw [List.take]
        exact List.mem_cons_of_mem _ (ih m k (by omega) (by simpa using hml))

theorem mem_take_exists {α : Type} :
    ∀ (l : List α) (k : Nat) (x : α), x ∈ l.take k →
    ∃ m, ∃ hm : m < l.length, m < k ∧ l.get ⟨m, hm⟩ = x := by
  intro l
  induction l with
  | nil => intro k x hx; rw [List.take_nil] at hx; exact absurd hx (by simp)
  | cons y l ih =>
    intro k x hx
    cases k with
    | zero => exact absurd hx (by simp)
    | succ k =>
      rw [List.take] at hx
      rcases List.mem_cons.mp hx with hx | hx
      · exact ⟨0, by simp, by omega, hx.symm⟩
      · obtain ⟨m, hm, hmk, hget⟩ := ih k x hx
        exact ⟨m + 1, by simpa using hm, by omega, hget⟩

/-! ## Linear chains (graphs built only from single-argument then calls) -/

/-- A graph built from a fresh builder by one single-argument then() call per
action, in order: the shape of every branch-free workflow chain. -/
def buildChain (t : Task) (acts : List Act) : Task :=
  acts.foldl (fun tk a => tk.thenA [⟨none, a⟩]) t

/-- A linear workflow: a fresh builder extended by single-argument then()
calls only. -/
def mkChain (bctx : Context) (acts : List Act) : Task :=
  buildChain (Task.emptyT bctx) acts

/-- The steps a linear chain starting at index i with initial frontier fr
consists of. -/
def chainSeg (i : Nat) (fr : List Nat) : List Act → List Step
  | [] => []
  | a :: rest => ⟨i, a, none, fr⟩ :: chainSeg (i + 1) [i] rest

theorem argsFresh_bare (t : Task) (a : Act) : argsFresh t [⟨none, a⟩] = true := by
  simp [argsFresh, ThenArg.name]

theorem thenA_bare (t : Task) (a : Act) (he : t.err = none) :
    t.thenA [⟨none, a⟩] =
      { t with steps := t.steps ++ [⟨t.steps.length, a, none, t.frontier⟩],
               frontier := [t.steps.length],
               lastPred := none } := by
  rw [Task.thenA]
  rw [he]
  simp only [Option.isSome_none, Bool.false_eq_true, if_false, List.isEmpty_cons,
    argsFresh_bare, if_true]
  have h1 : mkSteps t.steps.length t.frontier [⟨none, a⟩] =
      [⟨t.steps.length, a, none, t.frontier⟩] := by
    rw [mkSteps, mkSteps]
  have h2 : mkNamed t.steps.length [(⟨none, a⟩ : ThenArg)] = [] := by
    rw [mkNamed, mkNamed]
    rfl
  rw [h1, h2]
  simp

theorem buildChain_steps :
    ∀ (acts : List Act) (t : Task), t.err = none →
    (buildChain t acts).steps = t.steps ++ chainSeg t.steps.length t.frontier acts ∧
    (buildChain t acts).err = none := by
  intro acts
  induction acts with
  | nil => intro t he; simp [buildChain, chainSeg, he]
  | cons a rest ih =>
    intro t he
    have hstep : buildChain t (a :: rest) = buildChain (t.thenA [⟨none, a⟩]) rest := by
      rw [buildChain, buildChain, List.foldl_cons]
    rw [hstep, thenA_bare t a he]
    obtain ⟨h1, h2⟩ := ih
      { t with steps := t.steps ++ [⟨t.steps.length, a, none, t.frontier⟩],
               frontier := [t.steps.length], lastPred := none } he
    refine ⟨?_, h2⟩
    rw [h1]
    simp only [List.length_append, List.length_singleton]
    rw [chainSeg]
    simp [List.append_assoc]

theorem chainSeg_length : ∀ (acts : List Act) (i : Nat) (fr : List Nat),
    (chainSeg i fr acts).length = acts.length := by
  intro acts
  induction acts with
  | nil => intro i fr; rfl
  | cons a rest ih => intro i fr; rw [chainSeg]; simp [ih]

theorem chainSeg_mem :
    ∀ (acts : List Act) (i : Nat) (fr : List Nat) (s : Step), s ∈ chainSeg i fr acts →
    i ≤ s.id ∧ s.id < i + acts.length ∧ (s.id = i → s.preds = fr) ∧
    (i < s.id → s.preds = [s.id - 1]) := by
  intro acts
  induction acts with
  | nil => intro i fr s hs; exact absurd hs (by simp [chainSeg])
  | cons a rest ih =>
    intro i fr s hs
    rw [chainSeg] at hs
    rcases List.mem_cons.mp hs with hs | hs
    · subst hs
      refine ⟨Nat.le_refl _, by simp, fun _ => rfl, fun hlt => absurd hlt (by simp)⟩
    · obtain ⟨h1, h2, h3, h4⟩ := ih (i + 1) [i] s hs
      refine ⟨by omega, by simp [List.length_cons]; omega, fun hid => by omega, ?_⟩
      intro hlt
      rcases Nat.lt_or_ge (i + 1) s.id with hc | hc
      · exact h4 hc
      · have hid : s.id = i + 1 := by omega
        rw [h3 hid, hid]
        simp

theorem chainSeg_exists :
    ∀ (acts : List Act) (i : Nat) (fr : List Nat) (j : Nat), i ≤ j → j < i + acts.length →
    ∃ s ∈ chainSeg i fr acts, s.id = j := by
  intro acts
  induction acts with
  | nil => intro i fr j h1 h2; simp at h2; omega
  | cons a rest ih =>
    intro i fr j h1 h2
    rcases Nat.eq_or_lt_of_le h1 with he | hlt
    · exact ⟨⟨i, a, none, fr⟩, by rw [chainSeg]; exact List.mem_cons_self _ _, he⟩
    · obtain ⟨s, hs, hid⟩ := ih (i + 1) [i] j hlt (by simpa [Nat.add_assoc, Nat.add_comm 1] using h2)
      exact ⟨s, by rw [chainSeg]; exact List.mem_cons_of_mem _ hs, hid⟩

/-- A duplicate-free list of naturals in which every element is either zero
or the successor of an earlier element is the identity enumeration. -/
theorem seq_order (l : List Nat) (hnd : l.Nodup)
    (h0 : ∀ k (hk : k < l.length), l.get ⟨k, hk⟩ = 0 ∨
      ∃ m, ∃ hm : m < l.length, m < k ∧ l.get ⟨m, hm⟩ + 1 = l.get ⟨k, hk⟩) :
    ∀ k (hk : k < l.length), l.get ⟨k, hk⟩ = k := by
  intro k
  induction k using Nat.strong_induction_on with
  | _ k ih =>
    intro hk
    rcases h0 k hk with hz | ⟨m, hm, hmk, hsucc⟩
    · by_cases hkz : k = 0
      · rw [hz, hkz]
      · exfalso
        have h0lt : 0 < l.length := by omega
        have hg0 : l.get ⟨0, h0lt⟩ = 0 := ih 0 (by omega) h0lt
        have hfe : (⟨k, hk⟩ : Fin l.length) = ⟨0, h0lt⟩ :=
          (List.Nodup.get_inj_iff hnd).mp (by rw [hz, hg0])
        exact hkz (by simpa using congrArg Fin.val hfe)
    · have hgm : l.get ⟨m, hm⟩ = m := ih m hmk hm
      rw [hgm] at hsucc
      rcases Nat.lt_or_ge (m + 1) k with hc | hc
      · exfalso
        have hm1 : m + 1 < l.length := by omega
        have hgm1 : l.get ⟨m + 1, hm1⟩ = m + 1 := ih (m + 1) hc hm1
        have hfe : (⟨k, hk⟩ : Fin l.length) = ⟨m + 1, hm1⟩ :=
          (List.Nodup.get_inj_iff hnd).mp (by rw [hgm1, ← hsucc])
        have hkm : k = m + 1 := by simpa using congrArg Fin.val hfe
        omega
      · have hkm : k = m + 1 := by omega
        rw [← hsucc, hkm]

theorem map_get {α β : Type} (f : α → β) (l : List α) (k : Nat)
    (hk : k < l.length) (hk2 : k < (l.map f).length) :
    (l.map f).get ⟨k, hk2⟩ = f (l.get ⟨k, hk⟩) := by
  simp

/-! ## Claims about the task engine -/

/-- C1: for every workflow graph containing an ifThen/otherwise pair, the
branch predicate is evaluated exactly once during graph construction,
against the build-time context, before the Executor runs: the built graph
depends on the predicate only through its single value at the build-time
context, the graph consists exactly of the steps of the single chosen
continuation, and running the combined graph is running the chosen
continuation - the Executor performs no runtime branch skipping. -/
theorem c1_branch_resolution (t : Task) (p q : Context → Bool) (f g : Task → Task)
    (init : Context) (he : t.err = none) :
    (p t.buildCtx = q t.buildCtx →
      (t.ifThen p f).otherwise g = (t.ifThen q f).otherwise g) ∧
    ((t.ifThen p f).otherwise g).steps =
      (if p t.buildCtx then (f { t with lastPred := none }).steps
        else (g { t with lastPred := none }).steps) ∧
    ((t.ifThen p f).otherwise g).start init =
      (if p t.buildCtx then (f { t with lastPred := none }).start init
        else (g { t with lastPred := none }).start init) := by
  have hns : t.err.isSome = false := by rw [he]; rfl
  refine ⟨?_, ?_, ?_⟩
  · intro hpq
    rw [Task.ifThen, Task.ifThen, hpq]
  · by_cases hp : p t.buildCtx
    · simp [Task.ifThen, Task.otherwise, hns, hp]
    · simp [Task.ifThen, Task.otherwise, hns, hp]
  · by_cases hp : p t.buildCtx
    · simp only [Task.ifThen, hns, Bool.false_eq_true, if_false, hp, if_true]
      rfl
    · simp only [Task.ifThen, hns, Bool.false_eq_true, if_false, hp]
      simp only [Task.otherwise, hns]
      rfl

/-- C5: for every ifThen(predicate, f) immediately followed by otherwise(g)
on the same builder, exactly one of the two builder functions f and g is
applied to the builder - f when the predicate holds, g when it does not;
the resulting builder is literally the one produced by the single chosen
function, so never both and never neither run. -/
theorem c5_exactly_one_branch (t : Task) (p : Context → Bool) (f g : Task → Task)
    (he : t.err = none) :
    (p t.buildCtx = true →
      (t.ifThen p f).otherwise g =
        { f { t with lastPred := none } with lastPred := none }) ∧
    (p t.buildCtx = false →
      (t.ifThen p f).otherwise g =
        { g { t with lastPred := none } with lastPred := none }) := by
  have hns : t.err.isSome = false := by rw [he]; rfl
  constructor
  · intro hp
    simp [Task.ifThen, Task.otherwise, hns, hp]
  · intro hp
    simp [Task.ifThen, Task.otherwise, hns, hp]

/-- C4: for every workflow graph built only from single-argument then()
calls, the Actions execute in exactly the order the then() calls were
declared: the k-th scheduled step is step k, and a successful run executes
one step per declared action. -/
theorem c4_sequential_order (bctx init : Context) (acts : List Act)
    (tr : List TraceEntry) (res : Except RunErr Context)
    (hrun : (mkChain bctx acts).run init = (tr, res)) :
    (∀ k (hk : k < tr.length), (tr.get ⟨k, hk⟩).sid = k) ∧
    (∀ c, res = .ok c → tr.length = acts.length) := by
  have hsteps : (mkChain bctx acts).steps = chainSeg 0 [] acts := by
    have := (buildChain_steps acts (Task.emptyT bctx) rfl).1
    simpa [mkChain, Task.emptyT] using this
  have htr : tr = ((mkChain bctx acts).run init).1 := (congrArg Prod.fst hrun).symm
  have hres : res = ((mkChain bctx acts).run init).2 := (congrArg Prod.snd hrun).symm
  have hok : okTrace (mkChain bctx acts).steps init [] tr := by
    rw [htr]
    exact runAux_okTrace _ _ _ _
  have hnd : (tr.map TraceEntry.sid).Nodup := by
    simpa using okTrace_nodup _ tr init [] hok List.nodup_nil
  have hlen : (tr.map TraceEntry.sid).length = tr.length := List.length_map _ _
  have hsidk : ∀ k (hk : k < tr.length), (tr.get ⟨k, hk⟩).sid = k := by
    have hseq := seq_order (tr.map TraceEntry.sid) hnd ?_
    · intro k hk
      have := hseq k (by rw [hlen]; exact hk)
      rwa [map_get TraceEntry.sid tr k hk] at this
    · intro k hk2
      have hk : k < tr.length := by rwa [hlen] at hk2
      rw [map_get TraceEntry.sid tr k hk]
      obtain ⟨s, hsmem, hsid, _, _, hready, _⟩ := okTrace_get _ tr init [] hok k hk
      rw [hsteps] at hsmem
      obtain ⟨_, _, _, hpred⟩ := chainSeg_mem acts 0 [] s hsmem
      by_cases hz : s.id = 0
      · left; rw [← hsid, hz]
      · right
        have hpos : 0 < s.id := Nat.pos_of_ne_zero hz
        have hpreds := (isReady_spec hready).2
        have hmem1 : s.id - 1 ∈ (tr.take k).map TraceEntry.sid := by
          have := hpreds (s.id - 1) (by rw [hpred hpos]; exact List.mem_cons_self _ _)
          simpa using this
        obtain ⟨e, hemem, hesid⟩ := List.mem_map.mp hmem1
        obtain ⟨m, hm, hmk, hgete⟩ := mem_take_exists tr k e hemem
        refine ⟨m, by rwa [hlen], hmk, ?_⟩
        rw [map_get TraceEntry.sid tr m hm, hgete, hesid, ← hsid]
        omega
  refine ⟨hsidk, ?_⟩
  intro c hc
  rw [hres] at hc
  have hall := (runAux_ok (mkChain bctx acts).steps (mkChain bctx acts).steps.length init [] c hc).2
  rw [allDone] at hall
  rw [decide_eq_true_eq] at hall
  have hallmem : ∀ s ∈ (mkChain bctx acts).steps, s.id ∈ tr.map TraceEntry.sid := by
    intro s hs
    have hthis := hall s hs
    have htr2 : (runAux (mkChain bctx acts).steps (mkChain bctx acts).steps.length init []).1
        = tr := by rw [htr]; rfl
    rw [htr2] at hthis
    simpa using hthis
  have hle : tr.length ≤ acts.length := by
    cases htrl : tr.length with
    | zero => omega
    | succ j =>
      have hj : j < tr.length := by omega
      obtain ⟨s, hsmem, hsid, _, _, _, _⟩ := okTrace_get _ tr init [] hok j hj
      rw [hsteps] at hsmem
      obtain ⟨_, hlt, _, _⟩ := chainSeg_mem acts 0 [] s hsmem
      have := hsidk j hj
      omega
  have hge : acts.length ≤ tr.length := by
    cases hal : acts.length with
    | zero => omega
    | succ j =>
      obtain ⟨s, hsmem, hsid⟩ := chainSeg_exists acts 0 [] j (by omega) (by omega)
      have hmem : s.id ∈ tr.map TraceEntry.sid := by
        apply hallmem
        rw [hsteps]
        exact hsmem
      obtain ⟨⟨m, hm2⟩, hget⟩ := List.mem_iff_get.mp hmem
      have hm : m < tr.length := by rwa [hlen] at hm2
      rw [map_get TraceEntry.sid tr m hm, hsidk m hm] at hget
      omega
  omega

theorem get_congr {α : Type} {l l2 : List α} (h : l = l2) (k : Nat)
    (hk : k < l.length) (hk2 : k < l2.length) : l.get ⟨k, hk⟩ = l2.get ⟨k, hk2⟩ := by
  subst h
  rfl

theorem take_succ_get {α : Type} :
    ∀ (l : List α) (k : Nat) (hk : k < l.length),
    l.take (k + 1) = l.take k ++ [l.get ⟨k, hk⟩] := by
  intro l
  induction l with
  | nil => intro k hk; exact absurd hk (by simp)
  | cons x l ih =>
    intro k hk
    cases k with
    | zero => simp [List.take]
    | succ k =>
      rw [List.take, List.take, ih k (by simpa using hk)]
      rfl

/-- C2: for every workflow run in which some scheduled Action rejects, the
handle rejects with that same error, the Executor schedules no further steps
after the failure (the failing entry is the last one), every earlier entry
succeeded, and the failing step contributes no Context mutation (replaying
the whole trace equals replaying the part before the failure). -/
theorem c2_failure_propagation (t : Task) (init : Context)
    (tr : List TraceEntry) (res : Except RunErr Context)
    (hrun : t.run init = (tr, res)) :
    ∀ k (hk : k < tr.length) (e : Val), (tr.get ⟨k, hk⟩).out = .error e →
    res = .error (.actionFailed e) ∧
    tr.length = k + 1 ∧
    (∀ j (hj : j < k), ∃ v, (tr.get ⟨j, Nat.lt_trans hj hk⟩).out = .ok v) ∧
    ctxAfterTr init tr = ctxAfterTr init (tr.take k) := by
  have hrun2 : runAux t.steps t.steps.length init [] = (tr, res) := hrun
  have htr : tr = (runAux t.steps t.steps.length init []).1 :=
    (congrArg Prod.fst hrun2).symm
  have hok : okTrace t.steps init [] tr := by
    rw [htr]
    exact runAux_okTrace _ _ _ _
  intro k hk e hout
  have hres : res = .error (.actionFailed e) :=
    runAux_entry_err t.steps t.steps.length init [] tr res hrun2 k hk e hout
  have hlast : k + 1 = tr.length := okTrace_err_last t.steps tr init [] hok k hk e hout
  refine ⟨hres, hlast.symm, ?_, ?_⟩
  · intro j hj
    cases ho : (tr.get ⟨j, Nat.lt_trans hj hk⟩).out with
    | ok v => exact ⟨v, rfl⟩
    | error e2 =>
      exfalso
      have := okTrace_err_last t.steps tr init [] hok j (Nat.lt_trans hj hk) e2 ho
      omega
  · have hsplit : tr = tr.take k ++ [tr.get ⟨k, hk⟩] := by
      rw [← take_succ_get tr k hk, hlast, List.take_length]
    conv_lhs => rw [hsplit]
    rw [ctxAfterTr_append]
    rw [ctxAfterTr, hout]
    rfl

/-- C8: for every workflow run that completes successfully, every step of
the constructed graph has executed exactly once, and every scheduled step
started only after all of its predecessors had completed and had their
results merged: its input Context is the replay of exactly the preceding
entries. -/
theorem c8_exactly_once (t : Task) (init : Context)
    (tr : List TraceEntry) (res : Except RunErr Context) (c : Context)
    (hrun : t.run init = (tr, res)) (hres : res = .ok c) :
    (∀ s ∈ t.steps, (tr.map TraceEntry.sid).count s.id = 1) ∧
    (∀ k (hk : k < tr.length),
      ∃ s ∈ t.steps, s.id = (tr.get ⟨k, hk⟩).sid ∧
        (∀ p ∈ s.preds, p ∈ (tr.take k).map TraceEntry.sid) ∧
        (tr.get ⟨k, hk⟩).ctxIn = ctxAfterTr init (tr.take k)) := by
  have hrun2 : runAux t.steps t.steps.length init [] = (tr, res) := hrun
  have htr : tr = (runAux t.steps t.steps.length init []).1 :=
    (congrArg Prod.fst hrun2).symm
  have hres2 : (runAux t.steps t.steps.length init []).2 = .ok c := by
    rw [(congrArg Prod.snd hrun2)]
    exact hres
  have hok : okTrace t.steps init [] tr := by
    rw [htr]
    exact runAux_okTrace _ _ _ _
  have hnd : (tr.map TraceEntry.sid).Nodup := by
    simpa using okTrace_nodup _ tr init [] hok List.nodup_nil
  constructor
  · intro s hs
    have hall := (runAux_ok t.steps t.steps.length init [] c hres2).2
    rw [allDone, decide_eq_true_eq] at hall
    have hmem : s.id ∈ tr.map TraceEntry.sid := by
      have := hall s hs
      rw [← htr] at this
      simpa using this
    exact List.count_eq_one_of_mem hnd hmem
  · intro k hk
    obtain ⟨s, hsmem, hsid, _, _, hready, hctx⟩ := okTrace_get _ tr init [] hok k hk
    refine ⟨s, hsmem, hsid, ?_, hctx⟩
    intro p hp
    have := (isReady_spec hready).2 p hp
    simpa using this

/-- C6: for every workflow, start seeds the Context with exactly the given
initial entries (it equals a plain run from them, and the first scheduled
Action receives them verbatim); on success the handle resolves with the
final Context, which is the replay of all merges and from which every named
step result is readable via get; on failure it rejects with the first error
encountered (the failing entry ends the trace). -/
theorem c6_start_contract (t : Task) (init : Context) (he : t.err = none) :
    t.start init = t.run init ∧
    (∀ tr res, t.run init = (tr, res) →
      (∀ h0 : 0 < tr.length, (tr.get ⟨0, h0⟩).ctxIn = init) ∧
      (∀ c, res = .ok c → c = ctxAfterTr init tr ∧
        ((stepNames t.steps).Nodup →
          ∀ k (hk : k < tr.length) (n : String) (v : Val),
            (tr.get ⟨k, hk⟩).sname = some n → (tr.get ⟨k, hk⟩).out = .ok v →
            ctxGet c n = some v)) ∧
      (∀ e, res = .error (.actionFailed e) →
        ∃ k, ∃ hk : k < tr.length, (tr.get ⟨k, hk⟩).out = .error e ∧ k + 1 = tr.length)) := by
  constructor
  · rw [Task.start, he]
  · intro tr res hrun
    have hrun2 : runAux t.steps t.steps.length init [] = (tr, res) := hrun
    have htr : tr = (runAux t.steps t.steps.length init []).1 :=
      (congrArg Prod.fst hrun2).symm
    have hok : okTrace t.steps init [] tr := by
      rw [htr]
      exact runAux_okTrace _ _ _ _
    have hnd : (tr.map TraceEntry.sid).Nodup := by
      simpa using okTrace_nodup _ tr init [] hok List.nodup_nil
    refine ⟨?_, ?_, ?_⟩
    · intro h0
      obtain ⟨s, _, _, _, _, _, hctx⟩ := okTrace_get _ tr init [] hok 0 h0
      simpa [ctxAfterTr] using hctx
    · intro c hresc
      have hres2 : (runAux t.steps t.steps.length init []).2 = .ok c := by
        rw [congrArg Prod.snd hrun2]
        exact hresc
      have hfin : c = ctxAfterTr init tr := by
        have := (runAux_ok t.steps t.steps.length init [] c hres2).1
        rw [← htr] at this
        exact this
      refine ⟨hfin, ?_⟩
      intro hnames k hk n v hsname hout
      rw [hfin]
      exact writer_lookup t.steps hnames tr init [] hok hnd
        (tr.get ⟨k, hk⟩) (List.get_mem tr k hk) n v hsname hout
    · intro e hrese
      have hres2 : (runAux t.steps t.steps.length init []).2 = .error (.actionFailed e) := by
        rw [congrArg Prod.snd hrun2]
        exact hrese
      obtain ⟨k, hkr, hout⟩ := runAux_err t.steps t.steps.length init [] e hres2
      have hk : k < tr.length := by rw [htr]; exact hkr
      have houtTr : (tr.get ⟨k, hk⟩).out = .error e := by
        rw [get_congr htr k hk hkr]
        exact hout
      exact ⟨k, hk, houtTr, okTrace_err_last t.steps tr init [] hok k hk e houtTr⟩

/-- C7: for every workflow run, the Context is append-only: every scheduled
Action receives exactly the replay of the preceding merges, a key present at
an earlier point of the run is still present at every later point and in the
final Context, and reading a key at a later point with no intervening write
of that key returns the same value as at the earlier point. -/
theorem c7_context_append_only (t : Task) (init : Context)
    (tr : List TraceEntry) (res : Except RunErr Context)
    (hrun : t.run init = (tr, res)) (key : String) (k j : Nat)
    (hkj : k ≤ j) (hj : j ≤ tr.length) :
    (∀ hk : k < tr.length, (tr.get ⟨k, hk⟩).ctxIn = ctxAfterTr init (tr.take k)) ∧
    ((ctxGet (ctxAfterTr init (tr.take k)) key).isSome = true →
      (ctxGet (ctxAfterTr init (tr.take j)) key).isSome = true) ∧
    ((∀ e ∈ (tr.take j).drop k, e.sname ≠ some key) →
      ctxGet (ctxAfterTr init (tr.take j)) key = ctxGet (ctxAfterTr init (tr.take k)) key) ∧
    (∀ c, res = .ok c → (ctxGet (ctxAfterTr init (tr.take k)) key).isSome = true →
      (ctxGet c key).isSome = true) := by
  have hrun2 : runAux t.steps t.steps.length init [] = (tr, res) := hrun
  have htr : tr = (runAux t.steps t.steps.length init []).1 :=
    (congrArg Prod.fst hrun2).symm
  have hok : okTrace t.steps init [] tr := by
    rw [htr]
    exact runAux_okTrace _ _ _ _
  have hsplit : tr.take j = tr.take k ++ (tr.take j).drop k := by
    have hid := (List.take_append_drop k (tr.take j)).symm
    rwa [List.take_take, min_eq_left hkj] at hid
  refine ⟨?_, ?_, ?_, ?_⟩
  · intro hk
    obtain ⟨s, _, _, _, _, _, hctx⟩ := okTrace_get _ tr init [] hok k hk
    exact hctx
  · intro hsome
    rw [hsplit, ctxAfterTr_append]
    exact ctxGet_isSome_ctxAfterTr key _ _ hsome
  · intro hnw
    rw [hsplit, ctxAfterTr_append]
    exact ctxGet_no_write key _ _ hnw
  · intro c hresc hsome
    have hres2 : (runAux t.steps t.steps.length init []).2 = .ok c := by
      rw [congrArg Prod.snd hrun2]
      exact hresc
    have hfin : c = ctxAfterTr init tr := by
      have := (runAux_ok t.steps t.steps.length init [] c hres2).1
      rw [← htr] at this
      exact this
    have hsplit2 : tr = tr.take k ++ tr.drop k := (List.take_append_drop k tr).symm
    rw [hfin]
    conv_lhs => rw [hsplit2]
    rw [ctxAfterTr_append]
    exact ctxGet_isSome_ctxAfterTr key _ _ hsome

/-! ## Joins -/

theorem resolveNames_mem (t : Task) :
    ∀ (ns : List String) (ids : List Nat), resolveNames t ns = some ids →
    ∀ n ∈ ns, ∃ i ∈ ids, ∃ pr ∈ t.named, pr.1 = n ∧ pr.2 = i := by
  intro ns
  induction ns with
  | nil => intro ids _ n hn; exact absurd hn (by simp)
  | cons n0 rest ih =>
    intro ids h n hn
    rw [resolveNames] at h
    cases hf : t.named.find? (fun pr => pr.1 == n0) with
    | none => rw [hf] at h; cases h
    | some pr =>
      cases hr : resolveNames t rest with
      | none => rw [hf, hr] at h; cases h
      | some is =>
        rw [hf, hr] at h
        have hids : ids = pr.2 :: is := by
          cases h
          rfl
        have hpr1 : pr.1 = n0 := by
          have := List.find?_some hf
          simpa using this
        rcases List.mem_cons.mp hn with hn0 | hnr
        · refine ⟨pr.2, by rw [hids]; exact List.mem_cons_self _ _,
            pr, List.mem_of_find?_eq_some hf, by rw [hpr1, hn0], rfl⟩
        · obtain ⟨i, hi, pr2, hpr2, hp1, hp2⟩ := ih is hr n hnr
          exact ⟨i, by rw [hids]; exact List.mem_cons_of_mem _ hi, pr2, hpr2, hp1, hp2⟩

theorem after_step_eq (t : Task) (ns : List String) (a : ThenArg) (ids : List Nat)
    (he : t.err = none) (hres : resolveNames t ns = some ids)
    (hfresh : nameFresh t a = true) :
    t.after ns (.step a) =
      { t with steps := t.steps ++ [⟨t.steps.length, a.action, a.name, ids⟩],
               frontier := [t.steps.length],
               named := t.named ++
                 (match a.name with | some n => [(n, t.steps.length)] | none => []),
               lastPred := none } := by
  rw [Task.after, he]
  simp only [Option.isSome_none, Bool.false_eq_true, if_false, hres, hfresh, if_true]

/-- C3: for every join step created with after(names, step), the join step
carries exactly the named steps as predecessors, it is ready as soon as
those are done regardless of any other step, and when the Executor invokes
its Action, every named predecessor has already run successfully and its
published result is readable in the join input Context under its name. -/
theorem c3_join_semantics (t : Task) (ns : List String) (a : ThenArg) (ids : List Nat)
    (init : Context)
    (he : t.err = none)
    (hres : resolveNames t ns = some ids)
    (hfresh : nameFresh t a = true)
    (hnamed : namedOkB t = true)
    (hnames : (stepNames (t.after ns (.step a)).steps).Nodup)
    (hwf : wfStepsB (t.after ns (.step a)).steps = true) :
    (t.after ns (.step a)).steps =
      t.steps ++ [⟨t.steps.length, a.action, a.name, ids⟩] ∧
    (∀ dn : List Nat, (∀ i ∈ ids, i ∈ dn) → t.steps.length ∉ dn →
      isReady dn ⟨t.steps.length, a.action, a.name, ids⟩ = true) ∧
    (∀ tr res2, (t.after ns (.step a)).run init = (tr, res2) →
      ∀ k (hk : k < tr.length), (tr.get ⟨k, hk⟩).sid = t.steps.length →
      ∀ n ∈ ns, ∃ m, ∃ hm : m < tr.length, m < k ∧
        (∃ sn ∈ t.steps, sn.name = some n ∧ (tr.get ⟨m, hm⟩).sid = sn.id) ∧
        ∃ v, (tr.get ⟨m, hm⟩).out = .ok v ∧
          ctxGet (tr.get ⟨k, hk⟩).ctxIn n = some v) := by
  have hafter := after_step_eq t ns a ids he hres hfresh
  have hsteps : (t.after ns (.step a)).steps =
      t.steps ++ [⟨t.steps.length, a.action, a.name, ids⟩] := by
    rw [hafter]
  refine ⟨hsteps, ?_, ?_⟩
  · intro dn hall hnotin
    rw [isReady]
    simp only [Bool.and_eq_true, decide_eq_true_eq]
    exact ⟨hnotin, hall⟩
  · intro tr res2 hrun k hk hsid n hn
    have hrun2 : runAux (t.after ns (.step a)).steps (t.after ns (.step a)).steps.length
        init [] = (tr, res2) := hrun
    have htr : tr = (runAux (t.after ns (.step a)).steps
        (t.after ns (.step a)).steps.length init []).1 := (congrArg Prod.fst hrun2).symm
    have hok : okTrace (t.after ns (.step a)).steps init [] tr := by
      rw [htr]
      exact runAux_okTrace _ _ _ _
    have hnd : (tr.map TraceEntry.sid).Nodup := by
      simpa using okTrace_nodup _ tr init [] hok List.nodup_nil
    obtain ⟨s, hsmem, hsid2, _, _, hready, hctx⟩ := okTrace_get _ tr init [] hok k hk
    have hjmem : (⟨t.steps.length, a.action, a.name, ids⟩ : Step) ∈
        (t.after ns (.step a)).steps := by
      rw [hsteps]
      exact List.mem_append_right _ (List.mem_singleton.mpr rfl)
    have hseq : s = ⟨t.steps.length, a.action, a.name, ids⟩ := by
      apply wf_id_inj _ hwf s hsmem _ hjmem
      rw [hsid2, hsid]
    obtain ⟨i, hiids, pr, hprmem, hpr1, hpr2⟩ := resolveNames_mem t ns ids hres n hn
    rw [namedOkB, decide_eq_true_eq] at hnamed
    obtain ⟨sn, hsnmem, hsnid, hsnname⟩ := hnamed pr hprmem
    have hpreds : s.preds = ids := by rw [hseq]
    have hiin : i ∈ (tr.take k).map TraceEntry.sid := by
      have := (isReady_spec hready).2 i (by rw [hpreds]; exact hiids)
      simpa using this
    obtain ⟨ent, hentmem, hentsid⟩ := List.mem_map.mp hiin
    obtain ⟨m, hm, hmk, hgete⟩ := mem_take_exists tr k ent hentmem
    have hsidm : (tr.get ⟨m, hm⟩).sid = sn.id := by
      rw [hgete, hentsid, hsnid, hpr2]
    have hsnmem2 : sn ∈ (t.after ns (.step a)).steps := by
      rw [hsteps]
      exact List.mem_append_left _ hsnmem
    obtain ⟨s2, hs2mem, hs2id, hs2name⟩ := okTrace_mem _ tr init [] hok
      (tr.get ⟨m, hm⟩) (List.get_mem tr m hm)
    have hs2sn : s2 = sn := by
      apply wf_id_inj _ hwf s2 hs2mem sn hsnmem2
      rw [hs2id, hsidm]
    have hsnamem : (tr.get ⟨m, hm⟩).sname = some n := by
      rw [← hs2name, hs2sn, hsnname, hpr1]
    cases ho : (tr.get ⟨m, hm⟩).out with
    | error er =>
      exfalso
      have := okTrace_err_last _ tr init [] hok m hm er ho
      omega
    | ok v =>
      refine ⟨m, hm, hmk, ⟨sn, hsnmem, by rw [hsnname, hpr1], hsidm⟩, v, ho, ?_⟩
      rw [hctx]
      have hokk : okTrace (t.after ns (.step a)).steps init [] (tr.take k) :=
        okTrace_take _ tr init [] hok k
      have hndk : ((tr.take k).map TraceEntry.sid).Nodup := by
        rw [List.map_take]
        exact List.Nodup.sublist (List.take_sublist _ _) hnd
      have hentk : tr.get ⟨m, hm⟩ ∈ tr.take k := by
        rw [hgete]
        exact hentmem
      exact writer_lookup _ hnames (tr.take k) init [] hokk hndk
        (tr.get ⟨m, hm⟩) hentk n v hsnamem ho

/-! ## Project storage (embedded from src/projects/storage.js) -/

/-- A JavaScript-like value stored in the project storage mapping; jundefined is
the value of a property access on a missing key. -/
inductive JVal where
  | jnull
  | jundefined
  | jstr (s : String)
  | jnum (n : Int)
  | jbool (b : Bool)
deriving DecidableEq

/-- storage.hasOwnProperty(key) on the loaded storage object. -/
def hasOwnProperty (st : List (String × JVal)) (k : String) : Bool :=
  st.any (fun pr => pr.1 == k)

/-- Property access storage(key): the stored value, or undefined when the
key is missing. -/
def propAccess (st : List (String × JVal)) (k : String) : JVal :=
  match st.find? (fun pr => pr.1 == k) with
  | some pr => pr.2
  | none => .jundefined

/-- JSON.parse(JSON.stringify(v)): the deep copy used by storage.js; on
undefined, JSON.stringify yields undefined and JSON.parse of it throws. -/
def jsonRoundtrip : JVal → Except String JVal
  | .jundefined => .error "SyntaxError: invalid JSON input"
  | .jnull => .ok .jnull
  | .jstr s => .ok (.jstr s)
  | .jnum n => .ok (.jnum n)
  | .jbool b => .ok (.jbool b)

/-- The record shape returned by ProjectStorage.get. -/
structure GetResult where
  key : String
  data : JVal
deriving DecidableEq

/-- Embedded from src/projects/storage.js lines 34-46: ProjectStorage.get
resolves the loaded storage mapping, returns null when
storage.hasOwnProperty(key) holds, and otherwise builds the record with key
and a JSON round-trip deep copy of storage(key). -/
def ProjectStorage.get (st : List (String × JVal)) (k : String) :
    Except String (Option GetResult) :=
  if hasOwnProperty st k then .ok none
  else (jsonRoundtrip (propAccess st k)).map (fun d => some ⟨k, d⟩)

/-- C9: for every key present in the loaded project storage mapping,
ProjectStorage.get resolves to null, and the record-building branch (the
deep copy of the stored value) is reached only when hasOwnProperty is false:
the presence check is inverted, so get never returns the stored record for
an existing key. -/
theorem c9_storage_get_inverted (st : List (String × JVal)) (k : String) :
    (hasOwnProperty st k = true → ProjectStorage.get st k = .ok none) ∧
    (∀ r : GetResult, ProjectStorage.get st k = .ok (some r) →
      hasOwnProperty st k = false) := by
  constructor
  · intro h
    rw [ProjectStorage.get, if_pos h]
  · intro r h
    by_cases hp : hasOwnProperty st k = true
    · rw [ProjectStorage.get, if_pos hp] at h
      simp at h
    · simpa using hp

/-! ## Web project start and stop (embedded from src/projects/types/web_base.js) -/

/-- The value the promise chain built inside WebProject.start or
WebProject.stop would eventually resolve with: the container (identified by
a numeric id) or the project itself. -/
inductive ChainVal where
  | container (cid : Nat)
  | thisProject
deriving DecidableEq

/-- What a method call returns to its caller: the undefined value, or a
promise handle. -/
inductive RetVal where
  | jsUndefined
  | promise (p : Except String ChainVal)
deriving DecidableEq

/-- The evaluation of one method body: the promise chain it constructed as a
side effect, and the value the method itself returns. -/
structure MethodEval where
  chain : Except String ChainVal
  ret : RetVal
deriving DecidableEq

/-- Embedded from src/projects/types/web_base.js lines 25-32: start builds
the chain super.start(true) then cont = container and its ip, then
hostManager.addHost, then getContainer ? cont : this - but the body contains
no return statement, so the method returns undefined. -/
def WebProject.start (superStart : Except String Nat) (addHost : Except String Unit)
    (getContainer : Bool) : MethodEval :=
  { chain := do
      let cid ← superStart
      let _ ← addHost
      pure (if getContainer then ChainVal.container cid else ChainVal.thisProject)
    ret := RetVal.jsUndefined }

/-- Embedded from src/projects/types/web_base.js lines 34-41: stop builds
the chain super.stop(true) then cont, then hostManager.removeHost, then
getContainer ? cont : this - again with no return statement. -/
def WebProject.stop (superStop : Except String Nat) (removeHost : Except String Unit)
    (getContainer : Bool) : MethodEval :=
  { chain := do
      let cid ← superStop
      let _ ← removeHost
      pure (if getContainer then ChainVal.container cid else ChainVal.thisProject)
    ret := RetVal.jsUndefined }

/-- C10: for every value of the getContainer argument, WebProject.start and
WebProject.stop return undefined rather than the promise chain they
construct internally: the caller never receives a promise, cannot obtain the
container even with getContainer true (although the internal chain would
resolve with it), and never sees a failure of the underlying sequence
(although the internal chain would reject with it). -/
theorem c10_web_start_stop_return_undefined
    (s : Except String Nat) (ah : Except String Unit) (g : Bool) :
    (WebProject.start s ah g).ret = RetVal.jsUndefined ∧
    (WebProject.stop s ah g).ret = RetVal.jsUndefined ∧
    (∀ p, (WebProject.start s ah g).ret ≠ RetVal.promise p) ∧
    (∀ p, (WebProject.stop s ah g).ret ≠ RetVal.promise p) ∧
    (∀ cid, s = .ok cid → ah = .ok () → g = true →
      (WebProject.start s ah g).chain = .ok (ChainVal.container cid)) ∧
    (∀ e, s = .error e → (WebProject.start s ah g).chain = .error e) := by
  refine ⟨rfl, rfl, ?_, ?_, ?_, ?_⟩
  · intro p hp
    exact RetVal.noConfusion hp
  · intro p hp
    exact RetVal.noConfusion hp
  · intro cid hs hh hg
    subst hs
    subst hh
    subst hg
    rfl
  · intro e hs
    subst hs
    rfl

/-! ## Concrete example workflows used by the witnesses -/

/-- An Action that always succeeds with a fixed value. -/
def actConst (v : Val) : Act := fun _ => Except.ok v

/-- An Action that always rejects with a fixed error. -/
def actFail (e : Val) : Act := fun _ => Except.error e

/-- A build-time context carrying a false flag. -/
def flagCtx : Context := [("flag", Val.boolV false)]

/-- A fresh builder over the flag context. -/
def tBase : Task := Task.emptyT flagCtx

/-- A predicate over the context, as passed to ifThen. -/
def pFlag : Context → Bool := fun c => ctxGet c "flag" == some (Val.boolV false)

/-- A then-branch continuation. -/
def fThen : Task → Task := fun tk => tk.thenA [⟨none, actConst (Val.num 1)⟩]

/-- An otherwise-branch continuation. -/
def gElse : Task → Task := fun tk => tk.thenA [⟨none, actConst (Val.num 2)⟩]

/-- Two successful actions declared in order. -/
def actsTwo : List Act := [actConst (Val.num 1), actConst (Val.num 2)]

/-- A three-step chain whose middle Action rejects. -/
def tFail : Task :=
  ((Task.create [] [⟨none, actConst (Val.num 1)⟩]).thenA
    [⟨none, actFail (Val.str "boom")⟩]).thenA [⟨none, actConst (Val.num 2)⟩]

/-- A two-step chain whose first step is named x. -/
def tNamed : Task :=
  (Task.create [] [⟨some "x", actConst (Val.num 7)⟩]).thenA
    [⟨none, actConst (Val.num 2)⟩]

/-- A fan-out of two parallel steps, the first named x. -/
def tJoinBase : Task :=
  Task.create [] [⟨some "x", actConst (Val.num 7)⟩, ⟨none, actConst (Val.num 8)⟩]

/-- A named join argument. -/
def aJoin : ThenArg := ⟨some "j", actConst (Val.num 9)⟩

/-! ## Witnesses -/

theorem c1_branch_resolution_witness :
    (pFlag tBase.buildCtx = pFlag tBase.buildCtx →
      (tBase.ifThen pFlag fThen).otherwise gElse =
        (tBase.ifThen pFlag fThen).otherwise gElse) ∧
    ((tBase.ifThen pFlag fThen).otherwise gElse).steps =
      (if pFlag tBase.buildCtx then (fThen { tBase with lastPred := none }).steps
        else (gElse { tBase with lastPred := none }).steps) ∧
    ((tBase.ifThen pFlag fThen).otherwise gElse).start [] =
      (if pFlag tBase.buildCtx then (fThen { tBase with lastPred := none }).start []
        else (gElse { tBase with lastPred := none }).start []) :=
  c1_branch_resolution tBase pFlag pFlag fThen gElse [] rfl

theorem c5_exactly_one_branch_witness :
    (pFlag tBase.buildCtx = true →
      (tBase.ifThen pFlag fThen).otherwise gElse =
        { fThen { tBase with lastPred := none } with lastPred := none }) ∧
    (pFlag tBase.buildCtx = false →
      (tBase.ifThen pFlag fThen).otherwise gElse =
        { gElse { tBase with lastPred := none } with lastPred := none }) :=
  c5_exactly_one_branch tBase pFlag fThen gElse rfl

theorem c4_sequential_order_witness :
    ((mkChain [] actsTwo).run []).1.length = actsTwo.length :=
  (c4_sequential_order [] [] actsTwo ((mkChain [] actsTwo).run []).1
    ((mkChain [] actsTwo).run []).2 rfl).2 [] (by decide)

theorem c2_failure_propagation_witness :
    (tFail.run []).2 = Except.error (RunErr.actionFailed (Val.str "boom")) :=
  (c2_failure_propagation tFail [] ((tFail.run []).1) ((tFail.run []).2) rfl 1 (by decide)
    (Val.str "boom") (by decide)).1

theorem c8_exactly_once_witness :
    (∀ s ∈ tNamed.steps, (((tNamed.run []).1).map TraceEntry.sid).count s.id = 1) ∧
    (∀ k (hk : k < ((tNamed.run []).1).length),
      ∃ s ∈ tNamed.steps, s.id = (((tNamed.run []).1).get ⟨k, hk⟩).sid ∧
        (∀ p ∈ s.preds, p ∈ (((tNamed.run []).1).take k).map TraceEntry.sid) ∧
        (((tNamed.run []).1).get ⟨k, hk⟩).ctxIn = ctxAfterTr [] (((tNamed.run []).1).take k)) :=
  c8_exactly_once tNamed [] ((tNamed.run []).1) ((tNamed.run []).2)
    [("x", Val.num 7)] rfl (by decide)

theorem c6_start_contract_witness :
    tNamed.start [] = tNamed.run [] ∧
    (∀ tr res, tNamed.run [] = (tr, res) →
      (∀ h0 : 0 < tr.length, (tr.get ⟨0, h0⟩).ctxIn = []) ∧
      (∀ c, res = .ok c → c = ctxAfterTr [] tr ∧
        ((stepNames tNamed.steps).Nodup →
          ∀ k (hk : k < tr.length) (n : String) (v : Val),
            (tr.get ⟨k, hk⟩).sname = some n → (tr.get ⟨k, hk⟩).out = .ok v →
            ctxGet c n = some v)) ∧
      (∀ e, res = .error (.actionFailed e) →
        ∃ k, ∃ hk : k < tr.length, (tr.get ⟨k, hk⟩).out = .error e ∧ k + 1 = tr.length)) :=
  c6_start_contract tNamed [] rfl

theorem c7_context_append_only_witness :
    (∀ hk : 0 < ((tNamed.run []).1).length,
      (((tNamed.run []).1).get ⟨0, hk⟩).ctxIn = ctxAfterTr [] (((tNamed.run []).1).take 0)) ∧
    ((ctxGet (ctxAfterTr [] (((tNamed.run []).1).take 0)) "x").isSome = true →
      (ctxGet (ctxAfterTr [] (((tNamed.run []).1).take 1)) "x").isSome = true) ∧
    ((∀ e ∈ (((tNamed.run []).1).take 1).drop 0, e.sname ≠ some "x") →
      ctxGet (ctxAfterTr [] (((tNamed.run []).1).take 1)) "x" =
        ctxGet (ctxAfterTr [] (((tNamed.run []).1).take 0)) "x") ∧
    (∀ c, ((tNamed.run []).2) = .ok c →
      (ctxGet (ctxAfterTr [] (((tNamed.run []).1).take 0)) "x").isSome = true →
      (ctxGet c "x").isSome = true) :=
  c7_context_append_only tNamed [] ((tNamed.run []).1) ((tNamed.run []).2) rfl "x" 0 1
    (by decide) (by decide)

theorem c3_join_semantics_witness :
    (tJoinBase.after ["x"] (.step aJoin)).steps =
      tJoinBase.steps ++ [⟨tJoinBase.steps.length, aJoin.action, aJoin.name, [0]⟩] ∧
    (∀ dn : List Nat, (∀ i ∈ [0], i ∈ dn) → tJoinBase.steps.length ∉ dn →
      isReady dn ⟨tJoinBase.steps.length, aJoin.action, aJoin.name, [0]⟩ = true) ∧
    (∀ tr res2, (tJoinBase.after ["x"] (.step aJoin)).run [] = (tr, res2) →
      ∀ k (hk : k < tr.length), (tr.get ⟨k, hk⟩).sid = tJoinBase.steps.length →
      ∀ n ∈ ["x"], ∃ m, ∃ hm : m < tr.length, m < k ∧
        (∃ sn ∈ tJoinBase.steps, sn.name = some n ∧ (tr.get ⟨m, hm⟩).sid = sn.id) ∧
        ∃ v, (tr.get ⟨m, hm⟩).out = .ok v ∧
          ctxGet (tr.get ⟨k, hk⟩).ctxIn n = some v) :=
  c3_join_semantics tJoinBase ["x"] aJoin [0] [] (by decide) (by decide) (by decide)
    (by decide) (by decide) (by decide)

theorem c9_storage_get_inverted_witness :
    ProjectStorage.get [("a", JVal.jnum 1)] "a" = .ok none :=
  (c9_storage_get_inverted [("a", JVal.jnum 1)] "a").1 (by decide)

theorem c10_web_start_stop_witness :
    (WebProject.start (.ok 5) (.ok ()) true).ret = RetVal.jsUndefined ∧
    (WebProject.start (.ok 5) (.ok ()) true).chain = .ok (ChainVal.container 5) :=
  ⟨(c10_web_start_stop_return_undefined (.ok 5) (.ok ()) true).1,
    (c10_web_start_stop_return_undefined (.ok 5) (.ok ()) true).2.2.2.2.1 5 rfl rfl rfl⟩

end Drup
